import Mathlib

/-!
Verification of the incremental PDF indexing pipeline in `src/indexer.py`
(class `Indexer`) against its natural-language specification.

The Python code is shallowly embedded: pure helpers become Lean functions,
the filesystem and the Chroma collection become explicit values threaded
through the functions, and the observable side effects of a run (log lines,
hash computations, store writes) are collected as explicit event lists.
Machine-level collaborators are modelled at their interface:
  * the MD5 digest of `_calculate_hash` is modelled as an injective
    idealization (the digest input itself), so fingerprint equality in the
    model is exactly equality of the digested byte strings;
  * `pypdf` page extraction is modelled as a per-file field holding either
    the list of page texts or an extraction error;
  * the chunk splitter (`langchain.CharacterTextSplitter`, a library whose
    code is not part of this repository) is modelled from the spec, see
    `split` below.
-/

namespace KBIndexer

/-! ### Decimal rendering of numbers (Python `str(int)` / f-string interpolation)

`index_knowledge_base` (line 149) builds chunk ids with
`f"{source}_{page_number}_{chunk_index}"`.  Page numbers and chunk indices
are rendered in decimal.  We model Python's decimal rendering with an
explicit fuel so that every definition reduces in the kernel. -/

/-- The decimal digit character for `n % 10`, as in Python's `str`. -/
def digitChar : Nat → Char
  | 0 => '0' | 1 => '1' | 2 => '2' | 3 => '3' | 4 => '4'
  | 5 => '5' | 6 => '6' | 7 => '7' | 8 => '8' | 9 => '9'
  | _ => '*'

/-- Accumulator-passing decimal rendering; `fuel` bounds the number of
digits produced and is always supplied as `n + 1`, which is sufficient. -/
def pyStrNatCore : Nat → Nat → List Char → List Char
  | 0, _, acc => acc
  | fuel + 1, n, acc =>
    if n < 10 then digitChar n :: acc
    else pyStrNatCore fuel (n / 10) (digitChar (n % 10) :: acc)

/-- Python `str` on a nonnegative integer: decimal digits, no sign. -/
def pyStrNat (n : Nat) : String := ⟨pyStrNatCore (n + 1) n []⟩

/-- Python `str` on an `int`: a `-` sign followed by digits when negative. -/
def pyStrInt (i : Int) : String :=
  if i < 0 then "-" ++ pyStrNat i.natAbs else pyStrNat i.toNat

theorem digitChar_toNat {n : Nat} (h : n < 10) : (digitChar n).toNat = 48 + n := by
  interval_cases n <;> decide

theorem digitChar_ne_underscore {n : Nat} (h : n < 10) : digitChar n ≠ '_' := by
  interval_cases n <;> decide

theorem pyStrNatCore_append (fuel : Nat) :
    ∀ (n : Nat) (acc : List Char),
      pyStrNatCore fuel n acc = pyStrNatCore fuel n [] ++ acc := by
  induction fuel with
  | zero => intro n acc; rfl
  | succ f ih =>
    intro n acc
    by_cases h : n < 10
    · simp [pyStrNatCore, h]
    · simp only [pyStrNatCore, if_neg h]
      rw [ih (n / 10) (digitChar (n % 10) :: acc), ih (n / 10) [digitChar (n % 10)]]
      simp

theorem underscore_not_mem_pyStrNatCore (fuel : Nat) :
    ∀ (n : Nat) (acc : List Char), '_' ∉ acc → '_' ∉ pyStrNatCore fuel n acc := by
  induction fuel with
  | zero => intro n acc h; exact h
  | succ f ih =>
    intro n acc h
    by_cases h10 : n < 10
    · simp only [pyStrNatCore, if_pos h10]
      intro hmem
      rcases List.mem_cons.mp hmem with h1 | h2
      · exact digitChar_ne_underscore h10 h1.symm
      · exact h h2
    · simp only [pyStrNatCore, if_neg h10]
      apply ih
      intro hmem
      rcases List.mem_cons.mp hmem with h1 | h2
      · exact digitChar_ne_underscore (Nat.mod_lt _ (by norm_num)) h1.symm
      · exact h h2

theorem underscore_not_mem_pyStrNat (n : Nat) : '_' ∉ (pyStrNat n).data :=
  underscore_not_mem_pyStrNatCore (n + 1) n [] (by simp)

/-- The numeric value read back from a digit string (most significant first). -/
def decVal (l : List Char) : Nat := l.foldl (fun a c => 10 * a + (c.toNat - 48)) 0

theorem decVal_pyStrNatCore (fuel : Nat) :
    ∀ n : Nat, n < 10 ^ fuel → decVal (pyStrNatCore fuel n []) = n := by
  induction fuel with
  | zero =>
    intro n hn
    interval_cases n
    rfl
  | succ f ih =>
    intro n hn
    by_cases h10 : n < 10
    · simp [pyStrNatCore, if_pos h10, decVal, digitChar_toNat h10]
    · simp only [pyStrNatCore, if_neg h10]
      rw [pyStrNatCore_append]
      have hdiv : n / 10 < 10 ^ f := by
        rw [Nat.div_lt_iff_lt_mul (by norm_num)]
        calc n < 10 ^ (f + 1) := hn
          _ = 10 ^ f * 10 := by ring
      have hv := ih (n / 10) hdiv
      simp only [decVal] at hv ⊢
      rw [List.foldl_append, hv]
      simp [digitChar_toNat (Nat.mod_lt n (by norm_num))]
      omega

theorem pyStrNat_injective {m n : Nat} (h : pyStrNat m = pyStrNat n) : m = n := by
  have hd : pyStrNatCore (m + 1) m [] = pyStrNatCore (n + 1) n [] := congrArg String.data h
  have hm : m < 10 ^ (m + 1) :=
    lt_of_lt_of_le (Nat.lt_pow_self (by norm_num) m)
      (Nat.pow_le_pow_right (by norm_num) (Nat.le_succ m))
  have hn : n < 10 ^ (n + 1) :=
    lt_of_lt_of_le (Nat.lt_pow_self (by norm_num) n)
      (Nat.pow_le_pow_right (by norm_num) (Nat.le_succ n))
  calc m = decVal (pyStrNatCore (m + 1) m []) := (decVal_pyStrNatCore _ m hm).symm
    _ = decVal (pyStrNatCore (n + 1) n []) := by rw [hd]
    _ = n := decVal_pyStrNatCore _ n hn

/-! ### Unique decomposition around a separator character -/

theorem sep_split_left :
    ∀ (l1 l2 r1 r2 : List Char), '_' ∉ l1 → '_' ∉ l2 →
      l1 ++ '_' :: r1 = l2 ++ '_' :: r2 → l1 = l2 ∧ r1 = r2 := by
  intro l1
  induction l1 with
  | nil =>
    intro l2 r1 r2 _ h2 heq
    cases l2 with
    | nil => simpa using heq
    | cons b t2 =>
      simp only [List.nil_append, List.cons_append, List.cons.injEq] at heq
      exact absurd (List.mem_cons_self b t2) (heq.1 ▸ h2)
  | cons a t1 ih =>
    intro l2 r1 r2 h1 h2 heq
    cases l2 with
    | nil =>
      simp only [List.cons_append, List.nil_append, List.cons.injEq] at heq
      exact absurd (List.mem_cons_self a t1) (heq.1 ▸ h1)
    | cons b t2 =>
      simp only [List.cons_append, List.cons.injEq] at heq
      have ht := ih t2 r1 r2 (fun hm => h1 (List.mem_cons_of_mem a hm))
        (fun hm => h2 (List.mem_cons_of_mem b hm)) heq.2
      exact ⟨by rw [heq.1, ht.1], ht.2⟩

/-- Unique decomposition at the last separator: when the parts after the
separator contain no separator, equal concatenations have equal parts. -/
theorem sep_split_right {a b r1 r2 : List Char}
    (h1 : '_' ∉ r1) (h2 : '_' ∉ r2)
    (heq : a ++ '_' :: r1 = b ++ '_' :: r2) : a = b ∧ r1 = r2 := by
  have hrev : r1.reverse ++ '_' :: a.reverse = r2.reverse ++ '_' :: b.reverse := by
    have := congrArg List.reverse heq
    simpa [List.reverse_append] using this
  have h := sep_split_left r1.reverse r2.reverse a.reverse b.reverse
    (by simpa using h1) (by simpa using h2) hrev
  constructor
  · have := congrArg List.reverse h.2; simpa using this
  · have := congrArg List.reverse h.1; simpa using this

/-! ### ContentHasher — `_calculate_hash` (indexer.py lines 22-25)

```python
def _calculate_hash(self, file_path: Path) -> str:
    content = file_path.read_bytes()
    modified_time = str(file_path.stat().st_mtime)
    return hashlib.md5(content + modified_time.encode()).hexdigest()
```

The digest input is the file's bytes concatenated, with no delimiter, with
the UTF-8 encoding of `str(st_mtime)`.  The MD5 digest itself is modelled
as an injective idealization (collision-free), i.e. the fingerprint is the
digest input; every collision exhibited below is therefore a collision of
the digest inputs and holds for any digest function whatsoever. -/

/-- UTF-8 bytes of a string (`str.encode()`); the model keeps code points. -/
def strBytes (s : String) : List Nat := s.data.map Char.toNat

/-- `_calculate_hash`, applied to a file's bytes and its `str(st_mtime)`. -/
def calculateHash (content : List Nat) (mtimeStr : String) : List Nat :=
  content ++ strBytes mtimeStr

theorem strBytes_injective {s t : String} (h : strBytes s = strBytes t) : s = t := by
  apply String.ext
  have : ∀ c d : Char, c.toNat = d.toNat → c = d := by
    intro c d hcd
    apply Char.ext
    exact UInt32.ext hcd
  exact List.map_injective_iff.mpr this h

/-! ### Chunker

Modelled from the spec: the splitter used at indexer.py line 98
(`CharacterTextSplitter(chunk_size=1000, chunk_overlap=200)` from the
`langchain` library) is not code of this repository, so the Chunker is
modelled from spec §4.3: `split(text, windowSize, overlap)` produces
fixed-length character windows advancing by `windowSize - overlap`
characters each step, the final window may be shorter, empty text yields an
empty sequence, and text shorter than `windowSize` yields exactly one chunk
equal to the whole text.  The fuel argument of `splitGo` is always called
with `text.length`, which is sufficient since every step consumes at least
one character. -/

def splitGo (ws step : Nat) : Nat → List Char → List (List Char)
  | 0, rem => [rem]
  | fuel + 1, rem =>
    if rem.length ≤ ws ∨ step = 0 then [rem]
    else rem.take ws :: splitGo ws step fuel (rem.drop step)

def split (text : List Char) (ws ov : Nat) : List (List Char) :=
  if text.isEmpty then [] else splitGo ws (ws - ov) text.length text

theorem splitGo_stop {ws step : Nat} {rem : List Char} (fuel : Nat)
    (h : rem.length ≤ ws) : splitGo ws step fuel rem = [rem] := by
  cases fuel with
  | zero => rfl
  | succ f => simp [splitGo, h]

theorem splitGo_step {ws step : Nat} {rem : List Char} (fuel : Nat)
    (h : ¬ rem.length ≤ ws) (hs : step ≠ 0) :
    splitGo ws step (fuel + 1) rem = rem.take ws :: splitGo ws step fuel (rem.drop step) := by
  simp [splitGo, h, hs]

theorem splitGo_ne_nil (ws step fuel : Nat) (rem : List Char) :
    splitGo ws step fuel rem ≠ [] := by
  cases fuel with
  | zero => simp [splitGo]
  | succ f =>
    by_cases h : rem.length ≤ ws ∨ step = 0
    · simp [splitGo, h]
    · push_neg at h
      rw [splitGo_step f (by omega) h.2]
      simp

theorem split_ne_nil {text : List Char} (h : text ≠ []) (ws ov : Nat) :
    split text ws ov ≠ [] := by
  have : text.isEmpty = false := by simpa [List.isEmpty_iff] using h
  rw [split, this]
  simp only [Bool.false_eq_true, if_false]
  exact splitGo_ne_nil _ _ _ _

/-- Every produced chunk is the fixed window `[step*i, step*i + ws)` of the
text (truncated at the end of the text). -/
theorem splitGo_getElem (ws step : Nat) (hstep : 0 < step) :
    ∀ (fuel : Nat) (rem : List Char), rem.length ≤ ws + step * fuel →
      ∀ i : Nat, i < (splitGo ws step fuel rem).length →
        (splitGo ws step fuel rem)[i]? = some ((rem.drop (step * i)).take ws) := by
  intro fuel
  induction fuel with
  | zero =>
    intro rem hlen i h
    simp only [splitGo, List.length_singleton] at h
    interval_cases i
    simp only [splitGo, List.getElem?_cons_zero, Nat.mul_zero, List.drop_zero]
    rw [List.take_of_length_le (by simpa using hlen)]
  | succ f ih =>
    intro rem hlen i h
    by_cases hrem : rem.length ≤ ws
    · rw [splitGo_stop (f + 1) hrem] at h ⊢
      simp only [List.length_singleton] at h
      interval_cases i
      simp only [List.getElem?_cons_zero, Nat.mul_zero, List.drop_zero]
      rw [List.take_of_length_le hrem]
    · rw [splitGo_step f hrem (by omega)] at h ⊢
      cases i with
      | zero => simp
      | succ j =>
        simp only [List.getElem?_cons_succ]
        have hlen' : (rem.drop step).length ≤ ws + step * f := by
          simp only [List.length_drop]
          have : ws + step * (f + 1) = (ws + step * f) + step := by ring
          omega
        rw [ih (rem.drop step) hlen' j (by simpa using h)]
        have hdd : (rem.drop step).drop (step * j) = rem.drop (step * (j + 1)) := by
          rw [List.drop_drop]
          congr 1
          ring
        rw [hdd]

theorem split_getElem (text : List Char) (ws ov : Nat) (hov : ov < ws) :
    ∀ i : Nat, i < (split text ws ov).length →
      (split text ws ov)[i]? = some ((text.drop ((ws - ov) * i)).take ws) := by
  intro i h
  by_cases hempty : text.isEmpty
  · simp [split, hempty] at h
  · simp only [split, hempty, Bool.false_eq_true, if_false] at h ⊢
    apply splitGo_getElem ws (ws - ov) (by omega) text.length text _ i h
    have h1 : 1 ≤ ws - ov := by omega
    have : text.length ≤ (ws - ov) * text.length := by
      calc text.length = 1 * text.length := by ring
        _ ≤ (ws - ov) * text.length := Nat.mul_le_mul_right _ h1
    omega

/-! ### IdAssigner — chunk ids (indexer.py line 149)

```python
ids = [f"{doc.metadata['source']}_{doc.metadata['page_number']}_{doc.metadata['chunk_index']}"
       for doc in chunks]
```
-/

/-- The chunk id: source path, page number and chunk index joined by `_`. -/
def mkChunkId (source : String) (page : Nat) (idx : Int) : String :=
  source ++ "_" ++ pyStrNat page ++ "_" ++ pyStrInt idx

theorem string_data_append (s t : String) : (s ++ t).data = s.data ++ t.data := rfl

theorem mkChunkId_injective {s1 s2 : String} {p1 p2 : Nat} {c1 c2 : Int}
    (hc1 : 0 ≤ c1) (hc2 : 0 ≤ c2)
    (h : mkChunkId s1 p1 c1 = mkChunkId s2 p2 c2) :
    s1 = s2 ∧ p1 = p2 ∧ c1 = c2 := by
  have hps1 : pyStrInt c1 = pyStrNat c1.toNat := by
    simp [pyStrInt, not_lt.mpr hc1]
  have hps2 : pyStrInt c2 = pyStrNat c2.toNat := by
    simp [pyStrInt, not_lt.mpr hc2]
  have hdata : (s1.data ++ '_' :: (pyStrNat p1).data) ++ '_' :: (pyStrNat c1.toNat).data
      = (s2.data ++ '_' :: (pyStrNat p2).data) ++ '_' :: (pyStrNat c2.toNat).data := by
    have := congrArg String.data h
    simp only [mkChunkId, string_data_append, hps1, hps2] at this
    simpa [List.append_assoc] using this
  have houter := sep_split_right (underscore_not_mem_pyStrNat _)
    (underscore_not_mem_pyStrNat _) hdata
  have hinner := sep_split_right (underscore_not_mem_pyStrNat _)
    (underscore_not_mem_pyStrNat _) houter.1
  have hs : s1 = s2 := String.ext hinner.1
  have hp : p1 = p2 := pyStrNat_injective (String.ext hinner.2)
  have hc : c1 = c2 := by
    have := pyStrNat_injective (String.ext houter.2)
    omega
  exact ⟨hs, hp, hc⟩

/-! ### Data model

A `FileRec` is one file on disk as the pipeline observes it: its path, its
bytes, the string form of its modification time (`str(st_mtime)`), and the
outcome of `pypdf` page extraction for it (the per-page texts, or an
extraction error).  The filesystem is the list of files, in the order the
recursive `glob` traversal of `_process_documents` (lines 100-101)
discovers them. -/

instance exceptDecEq {ε α : Type} [DecidableEq ε] [DecidableEq α] :
    DecidableEq (Except ε α)
  | Except.error e1, Except.error e2 =>
    if h : e1 = e2 then Decidable.isTrue (by rw [h])
    else Decidable.isFalse (by intro hc; injection hc; contradiction)
  | Except.error _, Except.ok _ => Decidable.isFalse (by intro hc; exact Except.noConfusion hc)
  | Except.ok _, Except.error _ => Decidable.isFalse (by intro hc; exact Except.noConfusion hc)
  | Except.ok a1, Except.ok a2 =>
    if h : a1 = a2 then Decidable.isTrue (by rw [h])
    else Decidable.isFalse (by intro hc; injection hc; contradiction)

structure FileRec where
  path : String
  bytes : List Nat
  mtimeStr : String
  pages : Except Unit (List String)
deriving DecidableEq

/-- `Path(file_path).exists()` / reading a path: first file with that path. -/
def lookupFile (fs : List FileRec) (p : String) : Option FileRec :=
  fs.find? (fun f => f.path = p)

/-- Chunk metadata as built at indexer.py lines 111-119 and updated at
lines 127-131.  `total_chunks` is absent (`none`) until the update at line
129 adds it. -/
structure Meta where
  source : String
  date_processed : String
  content_hash : List Nat
  chunk_index : Int
  file_type : String
  page_number : Nat
  total_pages : Nat
  total_chunks : Option Nat
deriving DecidableEq

/-- A `langchain` `Document`: page content plus metadata. -/
structure Chunk where
  page_content : String
  metadata : Meta
deriving DecidableEq

/-- A record persisted in the Chroma collection. -/
structure Record where
  id : String
  text : String
  meta : Meta
deriving DecidableEq

/-- The Chroma collection handle.  `queryFails` models the collection's
`get` raising (connectivity loss, backend corruption) — the exception path
of `_needs_indexing` lines 56-58. -/
structure Collection where
  records : List Record
  queryFails : Bool
deriving DecidableEq

/-- `collection.get(where={"source": path}, include=['metadatas'])`:
metadatas of the records whose `source` metadata equals `path`, or an
error when the store query fails. -/
def collectionGet (col : Collection) (source : String) : Except Unit (List Meta) :=
  if col.queryFails then Except.error ()
  else Except.ok ((col.records.filter (fun r => r.meta.source = source)).map (fun r => r.meta))

/-- Observable side effects of a run: each `_calculate_hash` invocation
(lines 39 and 105), the skip log line 135, the extraction-error log line
86 (the only report of a failed file), and the processing of a file with
nonempty extraction (entry into lines 105-133). -/
inductive Ev where
  | hashCalc (path : String)
  | skipLog (path : String)
  | extractErrorLog (path : String)
  | processed (path : String)
deriving DecidableEq

/-! ### ChangeDetector — `_needs_indexing` (indexer.py lines 27-58) -/

/-- `_needs_indexing`, returning its boolean together with the emitted
events.  Mirrors lines 35-58: missing file → `False`; otherwise compute
the current hash, query the store; query error → `True`; no matching
records → `True`; else compare the first returned record's
`content_hash` with the current hash. -/
def needsIndexing (fs : List FileRec) (col : Collection) (path : String) :
    Bool × List Ev :=
  match lookupFile fs path with
  | none => (false, [])
  | some f =>
    let current := calculateHash f.bytes f.mtimeStr
    match collectionGet col path with
    | Except.error _ => (true, [Ev.hashCalc path])
    | Except.ok metas =>
      match metas with
      | [] => (true, [Ev.hashCalc path])
      | m :: _ => (decide (m.content_hash ≠ current), [Ev.hashCalc path])

/-! ### TextExtractor — `_extract_text_from_pdf` (indexer.py lines 60-87) -/

/-- One extracted page (`page_data`, lines 76-80). -/
structure Page where
  text : String
  page_number : Nat
  total_pages : Nat
deriving DecidableEq

/-- Python `str.strip()` truthiness: the text contains at least one
non-whitespace character.  Whitespace is modelled as Python's ASCII
whitespace set. -/
def pyIsSpace (c : Char) : Bool :=
  c = ' ' || c = '\t' || c = '\n' || c = '\x0b' || c = '\x0c' || c = '\r'

def hasText (s : String) : Bool := s.data.any (fun c => ! pyIsSpace c)

/-- Python `enumerate`: pair every element with its position. -/
def enumAux : Nat → List α → List (Nat × α)
  | _, [] => []
  | n, a :: as => (n, a) :: enumAux (n + 1) as

def pyEnum (l : List α) : List (Nat × α) := enumAux 0 l

/-- `_extract_text_from_pdf`: page texts with their 1-based page number and
the page count, keeping only pages whose text `strip`s to nonempty (line
75); on a `pypdf` exception, log the path and return the empty list (lines
85-87). -/
def extractTextFromPdf (f : FileRec) : List Page × List Ev :=
  match f.pages with
  | Except.error _ => ([], [Ev.extractErrorLog f.path])
  | Except.ok texts =>
    ((pyEnum texts).filterMap (fun it =>
      if hasText it.2 then some ⟨it.2, it.1 + 1, texts.length⟩ else none), [])

/-! ### Per-page and per-file processing (`_process_documents`, lines 89-137) -/

/-- `CharacterTextSplitter.split_documents([doc])` with the line-98
parameters: split the page content and copy the document metadata onto
every produced chunk. -/
def splitDocuments (doc : Chunk) : List Chunk :=
  (split doc.page_content.data 1000 200).map
    (fun cs => { page_content := ⟨cs⟩, metadata := doc.metadata })

/-- Lines 107-133 for one page: build the page `Document` (metadata lines
111-119, with `chunk_index = -1` marking the whole document), split it,
then stamp `chunk_index`, `total_chunks` and `content_hash` onto every
chunk (lines 126-131). -/
def processPage (now path : String) (h : List Nat) (pd : Page) : List Chunk :=
  let doc : Chunk :=
    { page_content := pd.text
      metadata :=
        { source := path
          date_processed := now
          content_hash := h
          chunk_index := -1
          file_type := "pdf"
          page_number := pd.page_number
          total_pages := pd.total_pages
          total_chunks := none } }
  let pageChunks := splitDocuments doc
  (pyEnum pageChunks).map (fun ic =>
    { ic.2 with
      metadata :=
        { ic.2.metadata with
          chunk_index := (ic.1 : Int)
          total_chunks := some pageChunks.length
          content_hash := h } })

/-- The body of the dirty branch, lines 103-133: extract, and if any page
survived, hash the file once (line 105) and chunk every page. -/
def indexBranch (now : String) (f : FileRec) : List Chunk × List Ev :=
  let ext := extractTextFromPdf f
  if ext.1.isEmpty then ([], ext.2)
  else
    let h := calculateHash f.bytes f.mtimeStr
    (ext.1.flatMap (processPage now f.path h),
     ext.2 ++ [Ev.hashCalc f.path, Ev.processed f.path])

/-- Lines 102-135 for one discovered file: when `self.collection` is unset
the check is short-circuited (`not self.collection or ...`); otherwise
`_needs_indexing` decides between the dirty branch and the skip log. -/
def processFile (now : String) (fs : List FileRec) (col? : Option Collection)
    (f : FileRec) : List Chunk × List Ev :=
  match col? with
  | none => indexBranch now f
  | some col =>
    let need := needsIndexing fs col f.path
    if need.1 then
      let r := indexBranch now f
      (r.1, need.2 ++ r.2)
    else ([], need.2 ++ [Ev.skipLog f.path])

/-- The recursive `glob` of lines 100-101: the discovered files are those
whose path ends in `.pdf`, in traversal order. -/
def isPdfPath (p : String) : Bool := ".pdf".data.isSuffixOf p.data

def discover (fs : List FileRec) : List FileRec := fs.filter (fun f => isPdfPath f.path)

/-- `_process_documents`: fold over the discovered files, accumulating
chunks (and events) in order. -/
def processDocuments (now : String) (col? : Option Collection) (fs : List FileRec) :
    List Chunk × List Ev :=
  (discover fs).foldl
    (fun acc f =>
      let r := processFile now fs col? f
      (acc.1 ++ r.1, acc.2 ++ r.2))
    ([], [])

/-! ### `index_knowledge_base` (indexer.py lines 139-162) -/

/-- The `Indexer` object state that matters to the pipeline:
`self.collection`, `None` until the first run completes (lines 20, 162). -/
structure IndexerState where
  collection : Option Collection
deriving DecidableEq

def chunkId (c : Chunk) : String :=
  mkChunkId c.metadata.source c.metadata.page_number c.metadata.chunk_index

/-- `Chroma.from_documents` upsert of one record into the persisted
collection: overwrite the record with the same id in place, else append. -/
def upsertRecord (rs : List Record) (r : Record) : List Record :=
  if rs.any (fun q => q.id = r.id) then
    rs.map (fun q => if q.id = r.id then r else q)
  else rs ++ [r]

/-- The outcome of one `index_knowledge_base` call: the produced chunks,
their ids (line 149), the records written to the store (line 154), and the
event trace. -/
structure RunOut where
  chunks : List Chunk
  ids : List String
  writes : List Record
  events : List Ev
deriving DecidableEq

/-- `index_knowledge_base`: process the folder, assign ids, write all
chunks into the persisted collection, and set `self.collection` to the
resulting collection (line 162).  `persisted` is the content of the
persistent store (`persist_directory`) before the call; the function
returns the new indexer state, the new persisted store, and the run's
outcome. -/
def indexKnowledgeBase (st : IndexerState) (persisted : List Record)
    (fs : List FileRec) (now : String) :
    IndexerState × List Record × RunOut :=
  let pd := processDocuments now st.collection fs
  let chunks := pd.1
  let ids := chunks.map chunkId
  let writes := chunks.map (fun c => Record.mk (chunkId c) c.page_content c.metadata)
  let newRecords := writes.foldl upsertRecord persisted
  (⟨some ⟨newRecords, false⟩⟩, newRecords,
   ⟨chunks, ids, writes, pd.2⟩)

/-! ### Run summary

Modelled from the spec: §4.5 has the run return
`IndexingSummary{processedCount, skippedCount, failedPaths}`; the code
materializes no such value — its reports are the log lines (the skip log
at line 135, the extraction-error log at line 86 which is the only place a
failed path is surfaced, and the entry into processing).  The summary is
therefore derived from the corresponding events of the run's trace. -/

def evSkip : Ev → Option String
  | Ev.skipLog p => some p
  | _ => none

def evFail : Ev → Option String
  | Ev.extractErrorLog p => some p
  | _ => none

def evProc : Ev → Option String
  | Ev.processed p => some p
  | _ => none

def skippedPaths (out : RunOut) : List String := out.events.filterMap evSkip

def failedPaths (out : RunOut) : List String := out.events.filterMap evFail

def processedPaths (out : RunOut) : List String := out.events.filterMap evProc

/-- How many times the run computed the content hash of `path`. -/
def hashCalcCount (out : RunOut) (path : String) : Nat :=
  (out.events.filter (fun e => e = Ev.hashCalc path)).length

/-! ### Helper lemmas about the model -/

theorem mem_enumAux {α : Type} {l : List α} :
    ∀ {n : Nat} {p : Nat × α}, p ∈ enumAux n l ↔ ∃ i, p.1 = n + i ∧ l[i]? = some p.2 := by
  induction l with
  | nil =>
    intro n p
    simp [enumAux]
  | cons a as ih =>
    intro n p
    simp only [enumAux, List.mem_cons, ih]
    constructor
    · rintro (rfl | ⟨i, hi, hget⟩)
      · exact ⟨0, by simp⟩
      · exact ⟨i + 1, by omega, by simpa using hget⟩
    · rintro ⟨i, hi, hget⟩
      cases i with
      | zero =>
        left
        simp only [List.getElem?_cons_zero, Option.some.injEq] at hget
        have : p = (p.1, p.2) := rfl
        rw [this, hget]
        simp [hi]
      | succ j =>
        right
        exact ⟨j, by omega, by simpa using hget⟩

theorem mem_pyEnum {α : Type} {l : List α} {p : Nat × α} :
    p ∈ pyEnum l ↔ p.1 < l.length ∧ l[p.1]? = some p.2 := by
  rw [pyEnum, mem_enumAux]
  constructor
  · rintro ⟨i, hi, hget⟩
    have : p.1 = i := by omega
    subst this
    exact ⟨(List.getElem?_eq_some.mp hget).1, hget⟩
  · rintro ⟨hlt, hget⟩
    exact ⟨p.1, by omega, hget⟩

theorem pyEnum_ne_nil {α : Type} {l : List α} (h : l ≠ []) : pyEnum l ≠ [] := by
  cases l with
  | nil => exact absurd rfl h
  | cons a as => simp [pyEnum, enumAux]

/-- `processDocuments` is the concatenation of the per-file results. -/
theorem processDocuments_eq (now : String) (col? : Option Collection) (fs : List FileRec) :
    processDocuments now col? fs =
      ((discover fs).flatMap (fun f => (processFile now fs col? f).1),
       (discover fs).flatMap (fun f => (processFile now fs col? f).2)) := by
  rw [processDocuments]
  generalize discover fs = l
  suffices h : ∀ (acc : List Chunk × List Ev),
      l.foldl (fun acc f =>
        let r := processFile now fs col? f
        (acc.1 ++ r.1, acc.2 ++ r.2)) acc
      = (acc.1 ++ l.flatMap (fun f => (processFile now fs col? f).1),
         acc.2 ++ l.flatMap (fun f => (processFile now fs col? f).2)) by
    simpa using h ([], [])
  induction l with
  | nil => intro acc; simp
  | cons g gs ih =>
    intro acc
    simp only [List.foldl_cons, List.flatMap_cons, ih]
    simp

theorem filterMap_flatMap {α β γ : Type} (l : List α) (h : α → List β)
    (g : β → Option γ) :
    (l.flatMap h).filterMap g = l.flatMap (fun a => (h a).filterMap g) := by
  induction l with
  | nil => rfl
  | cons a as ih =>
    simp only [List.flatMap_cons, List.filterMap_append, ih]

theorem flatMap_eq_nil_of {α β : Type} {l : List α} {g : α → List β}
    (h : ∀ x ∈ l, g x = []) : l.flatMap g = [] := by
  induction l with
  | nil => rfl
  | cons a as ih =>
    simp only [List.flatMap_cons, h a (List.mem_cons_self a as), List.nil_append]
    exact ih (fun x hx => h x (List.mem_cons_of_mem a hx))

/-- Fields of every chunk produced from one page: the source path, the
stamped hash, a nonnegative chunk index, the page number, and the
processing date. -/
theorem mem_processPage {now path : String} {h : List Nat} {pd : Page} {c : Chunk}
    (hc : c ∈ processPage now path h pd) :
    c.metadata.source = path ∧ c.metadata.content_hash = h ∧
      0 ≤ c.metadata.chunk_index ∧ c.metadata.page_number = pd.page_number ∧
      c.metadata.date_processed = now := by
  simp only [processPage, List.mem_map] at hc
  obtain ⟨⟨i, c2⟩, hmem, rfl⟩ := hc
  obtain ⟨hlt, hget⟩ := mem_pyEnum.mp hmem
  have hc2 := List.getElem?_mem hget
  simp only [splitDocuments, List.mem_map] at hc2
  obtain ⟨cs, _, hcs⟩ := hc2
  subst hcs
  exact ⟨rfl, rfl, Int.ofNat_nonneg i, rfl, rfl⟩

theorem processPage_ne_nil {now path : String} {h : List Nat} {pd : Page}
    (htext : pd.text.data ≠ []) : processPage now path h pd ≠ [] := by
  simp only [processPage, ne_eq, List.map_eq_nil_iff]
  apply pyEnum_ne_nil
  simp only [splitDocuments, ne_eq, List.map_eq_nil_iff]
  exact split_ne_nil htext 1000 200

/-- Every page returned by the extractor has non-whitespace text, and its
`page_number` is the successor of a position in the page list holding that
text. -/
theorem mem_extractTextFromPdf {f : FileRec} {texts : List String} {u : Page}
    (hpages : f.pages = Except.ok texts) (hu : u ∈ (extractTextFromPdf f).1) :
    hasText u.text = true ∧ 1 ≤ u.page_number ∧
      texts[u.page_number - 1]? = some u.text ∧ u.total_pages = texts.length := by
  simp only [extractTextFromPdf, hpages, List.mem_filterMap] at hu
  obtain ⟨it, hmem, hsome⟩ := hu
  by_cases ht : hasText it.2
  · simp only [ht, if_pos, Option.some.injEq] at hsome
    subst hsome
    have := mem_pyEnum.mp hmem
    simpa [ht] using this.2
  · simp [ht] at hsome

theorem extractTextFromPdf_ne_nil {f : FileRec} {texts : List String}
    (hpages : f.pages = Except.ok texts) (htext : texts.any hasText = true) :
    (extractTextFromPdf f).1 ≠ [] := by
  simp only [List.any_eq_true] at htext
  obtain ⟨t, hmem, ht⟩ := htext
  obtain ⟨i, hget⟩ := List.getElem?_of_mem hmem
  have hlt : i < texts.length := (List.getElem?_eq_some.mp hget).1
  intro hnil
  have : (⟨t, i + 1, texts.length⟩ : Page) ∈ (extractTextFromPdf f).1 := by
    simp only [extractTextFromPdf, hpages, List.mem_filterMap]
    refine ⟨(i, t), mem_pyEnum.mpr ⟨by simpa using hlt, by simpa using hget⟩, by simp [ht]⟩
  rw [hnil] at this
  exact absurd this (List.not_mem_nil _)

theorem hasText_data_ne_nil {s : String} (h : hasText s = true) : s.data ≠ [] := by
  simp only [hasText, List.any_eq_true] at h
  obtain ⟨c, hc, _⟩ := h
  intro hnil
  rw [hnil] at hc
  exact absurd hc (List.not_mem_nil _)

/-- Fields of every chunk produced from one file. -/
theorem mem_indexBranch {now : String} {f : FileRec} {c : Chunk}
    (hc : c ∈ (indexBranch now f).1) :
    c.metadata.source = f.path ∧
      c.metadata.content_hash = calculateHash f.bytes f.mtimeStr ∧
      0 ≤ c.metadata.chunk_index ∧
      ∃ u ∈ (extractTextFromPdf f).1, c.metadata.page_number = u.page_number := by
  by_cases hext : (extractTextFromPdf f).1.isEmpty
  · simp [indexBranch, hext] at hc
  · simp only [indexBranch, hext, Bool.false_eq_true, if_false, List.mem_flatMap] at hc
    obtain ⟨u, hu, hcu⟩ := hc
    have hf := mem_processPage hcu
    exact ⟨hf.1, hf.2.1, hf.2.2.1, u, hu, hf.2.2.2.1⟩

theorem indexBranch_chunks_ne_nil {now : String} {f : FileRec} {texts : List String}
    (hpages : f.pages = Except.ok texts) (htext : texts.any hasText = true) :
    (indexBranch now f).1 ≠ [] := by
  have hext := extractTextFromPdf_ne_nil hpages htext
  have hisempty : (extractTextFromPdf f).1.isEmpty = false := by
    simpa [List.isEmpty_iff] using hext
  simp only [indexBranch, hisempty, Bool.false_eq_true, if_false, ne_eq,
    List.flatMap_eq_nil_iff, not_forall]
  obtain ⟨u, hu⟩ := List.exists_mem_of_ne_nil _ hext
  refine ⟨u, hu, ?_⟩
  have := mem_extractTextFromPdf hpages hu
  exact processPage_ne_nil (hasText_data_ne_nil this.1)

/-- Chunks only arise from the dirty branch. -/
theorem mem_processFile {now : String} {fs : List FileRec} {col? : Option Collection}
    {f : FileRec} {c : Chunk} (hc : c ∈ (processFile now fs col? f).1) :
    c ∈ (indexBranch now f).1 := by
  cases col? with
  | none => exact hc
  | some col =>
    by_cases hneed : (needsIndexing fs col f.path).1
    · simpa [processFile, hneed] using hc
    · simp [processFile, hneed] at hc

/-- Membership in the upserted store comes from the base store or the
written batch. -/
theorem mem_foldl_upsert :
    ∀ (ws base : List Record) (r : Record),
      r ∈ ws.foldl upsertRecord base → r ∈ base ∨ r ∈ ws := by
  intro ws
  induction ws with
  | nil => intro base r h; exact Or.inl h
  | cons w ws ih =>
    intro base r h
    rcases ih (upsertRecord base w) r h with hbase | hws
    · by_cases hany : base.any (fun q => q.id = w.id)
      · simp only [upsertRecord, hany, if_pos, List.mem_map] at hbase
        obtain ⟨q, hq, heq⟩ := hbase
        by_cases hid : q.id = w.id
        · simp only [hid, if_pos] at heq
          exact Or.inr (heq ▸ List.mem_cons_self w ws)
        · simp only [hid, if_neg, Bool.false_eq_true] at heq
          exact Or.inl (heq ▸ hq)
      · simp only [upsertRecord, hany, Bool.false_eq_true, if_false, List.mem_append,
          List.mem_singleton] at hbase
        rcases hbase with h1 | h2
        · exact Or.inl h1
        · exact Or.inr (h2 ▸ List.mem_cons_self w ws)
    · exact Or.inr (List.mem_cons_of_mem w hws)

theorem mem_upsertRecord_self (rs : List Record) (r : Record) : r ∈ upsertRecord rs r := by
  by_cases hany : rs.any (fun q => q.id = r.id)
  · simp only [upsertRecord, hany, if_pos, List.mem_map]
    obtain ⟨q, hq, hid⟩ := List.any_eq_true.mp hany
    exact ⟨q, hq, by rw [if_pos (of_decide_eq_true hid)]⟩
  · simp [upsertRecord, hany]

/-- The last record written for an id survives the fold; in particular
when the batch is nonempty and all its records satisfy a property, some
record in the final store satisfies it. -/
theorem exists_mem_foldl_upsert {P : Record → Prop} {ws : List Record}
    (base : List Record) (hne : ws ≠ []) (hall : ∀ w ∈ ws, P w) :
    ∃ r ∈ ws.foldl upsertRecord base, P r := by
  rcases List.eq_nil_or_concat ws with rfl | ⟨l, w, rfl⟩
  · exact absurd rfl hne
  · rw [List.concat_eq_append, List.foldl_concat]
    refine ⟨w, mem_upsertRecord_self _ w, hall w (by simp)⟩

/-- When `_needs_indexing` answers `True`, the file existed and the hash
was computed (its event trace is exactly one hash computation). -/
theorem needsIndexing_true_events {fs : List FileRec} {col : Collection} {path : String}
    (h : (needsIndexing fs col path).1 = true) :
    (needsIndexing fs col path).2 = [Ev.hashCalc path] := by
  rw [needsIndexing] at h ⊢
  cases hlook : lookupFile fs path with
  | none => rw [hlook] at h; simp at h
  | some f =>
    cases hget : collectionGet col path with
    | error e => rfl
    | ok metas => cases metas <;> rfl

/-! ### Concrete fixtures used by witnesses -/

def fileA : FileRec := ⟨"a.pdf", [0, 1], "100.5", Except.ok ["hello world"]⟩

def fileBad : FileRec := ⟨"b.pdf", [2], "7.0", Except.error ()⟩

def fileWs : FileRec := ⟨"w.pdf", [3], "8.0", Except.ok ["  ", "\t\n"]⟩

/-! ### Claims -/

/-- C1: every chunk produced by the Chunker with `windowSize=1000`,
`overlap=200` is the fixed-length window starting at `800 * i` (the final
window may be shorter); a 2500-character text yields exactly the 3 chunks
covering `[0,1000)`, `[800,1800)`, `[1600,2500)`, and the pipeline stamps
them with chunk indices `0,1,2` and `totalChunks = 3`. -/
theorem claim_C1 (text : List Char) :
    (∀ i : Nat, i < (split text 1000 200).length →
        (split text 1000 200)[i]? = some ((text.drop (800 * i)).take 1000))
    ∧ (text.length = 2500 →
        split text 1000 200 =
          [text.take 1000, (text.drop 800).take 1000, text.drop 1600]
        ∧ (split text 1000 200).length = 3)
    ∧ (∀ (now path : String) (hsh : List Nat) (pd : Page),
        pd.text.data.length = 2500 →
        (processPage now path hsh pd).map
            (fun c => (c.metadata.chunk_index, c.metadata.total_chunks))
          = [((0 : Int), some 3), (1, some 3), (2, some 3)]) := by
  have hsplit : ∀ t : List Char, t.length = 2500 →
      split t 1000 200 = [t.take 1000, (t.drop 800).take 1000, t.drop 1600] := by
    intro t ht
    have hne : t.isEmpty = false := by
      cases t with
      | nil => simp at ht
      | cons a as => rfl
    have h0 : split t 1000 200 = splitGo 1000 800 2500 t := by
      rw [split, hne]
      simp only [Bool.false_eq_true, if_false, ht]
    rw [h0]
    rw [show (2500 : Nat) = 2499 + 1 from rfl,
      splitGo_step 2499 (by omega) (by norm_num)]
    rw [show (2499 : Nat) = 2498 + 1 from rfl,
      splitGo_step 2498 (by simp [List.length_drop, ht]) (by norm_num)]
    have hdd : (t.drop 800).drop 800 = t.drop 1600 := by
      rw [List.drop_drop]
    rw [hdd, splitGo_stop 2498 (by simp [List.length_drop, ht])]
  refine ⟨?_, ?_, ?_⟩
  · intro i hi
    have := split_getElem text 1000 200 (by norm_num) i hi
    simpa using this
  · intro ht
    refine ⟨hsplit text ht, ?_⟩
    rw [hsplit text ht]
    rfl
  · intro now path hsh pd ht
    have h3 := hsplit pd.text.data ht
    simp only [processPage, splitDocuments, h3, List.map_cons, List.map_nil,
      pyEnum, enumAux, List.length_cons, List.length_nil]
    norm_num

/-- C1 witness: the 2500-character text consisting of 2500 copies of `a`. -/
theorem claim_C1_witness :
    (List.replicate 2500 'a').length = 2500
    ∧ split (List.replicate 2500 'a') 1000 200 =
        [(List.replicate 2500 'a').take 1000,
         ((List.replicate 2500 'a').drop 800).take 1000,
         (List.replicate 2500 'a').drop 1600]
    ∧ (split (List.replicate 2500 'a') 1000 200).length = 3 :=
  ⟨by rw [List.length_replicate], ((claim_C1 _).2.1 (by rw [List.length_replicate])).1,
   ((claim_C1 _).2.1 (by rw [List.length_replicate])).2⟩

/-- When the file exists, the query succeeds and matching records exist,
`_needs_indexing` answers `True` exactly when the first returned record's
stored hash differs from the current fingerprint. -/
theorem needsIndexing_first_record {fs : List FileRec} {col : Collection}
    {path : String} {f : FileRec} {r : Record} {rest : List Record}
    (hlook : lookupFile fs path = some f) (hq : col.queryFails = false)
    (hfil : (col.records.filter (fun q => q.meta.source = path)) = r :: rest) :
    (needsIndexing fs col path).1 = true ↔
      r.meta.content_hash ≠ calculateHash f.bytes f.mtimeStr := by
  have hget : collectionGet col path =
      Except.ok ((col.records.filter (fun q => q.meta.source = path)).map
        (fun q => q.meta)) := by
    simp [collectionGet, hq]
  simp only [needsIndexing, hlook, hget, hfil, List.map_cons]
  simp [decide_eq_true_iff]

/-- C3: `_needs_indexing` returns `False` for a missing file; when the
file exists and the store query succeeds it returns `True` when no record
has `source == path`, and when matching records exist it returns `True`
exactly when the stored `content_hash` of the returned record differs from
the freshly computed fingerprint (the code inspects the first returned
record, `results['metadatas'][0]`). -/
theorem claim_C3 (fs : List FileRec) (col : Collection) (path : String) :
    (lookupFile fs path = none → (needsIndexing fs col path).1 = false)
    ∧ (∀ f, lookupFile fs path = some f → col.queryFails = false →
        ((col.records.filter (fun r => r.meta.source = path)) = [] →
            (needsIndexing fs col path).1 = true)
        ∧ (∀ r rest, (col.records.filter (fun r => r.meta.source = path)) = r :: rest →
            ((needsIndexing fs col path).1 = true ↔
              r.meta.content_hash ≠ calculateHash f.bytes f.mtimeStr))) := by
  constructor
  · intro hnone
    simp [needsIndexing, hnone]
  · intro f hlook hq
    have hget : collectionGet col path =
        Except.ok ((col.records.filter (fun r => r.meta.source = path)).map
          (fun r => r.meta)) := by
      simp [collectionGet, hq]
    constructor
    · intro hfil
      simp [needsIndexing, hlook, hget, hfil]
    · intro r rest hfil
      exact needsIndexing_first_record hlook hq hfil

/-- C3 witness: an existing file absent from an empty store needs indexing. -/
theorem claim_C3_witness :
    lookupFile [fileA] "a.pdf" = some fileA
    ∧ (needsIndexing [fileA] ⟨[], false⟩ "a.pdf").1 = true :=
  ⟨by decide,
   ((claim_C3 [fileA] ⟨[], false⟩ "a.pdf").2 fileA (by decide) rfl).1 (by decide)⟩

/-- C4 counterexample: the id separator is `_`, which is not absent from
paths — `my_doc.pdf` is a path the pipeline accepts and it contains the
separator character. -/
theorem claim_C4_counterexample :
    isPdfPath "my_doc.pdf" = true
    ∧ '_' ∈ "my_doc.pdf".data
    ∧ mkChunkId "my_doc.pdf" 1 0 = "my_doc.pdf_1_0" := by
  refine ⟨by decide, by decide, by decide⟩

/-- C4 amended: the id joins source path, page number and chunk index with
`_`, a character that can occur in paths; the assignment is nonetheless
injective on every triple with a nonnegative chunk index — and all chunk
indices produced by a run are nonnegative — because the page and index
components are decimal digit strings that never contain the separator. -/
theorem claim_C4_amended :
    (∀ (s1 s2 : String) (p1 p2 : Nat) (c1 c2 : Int), 0 ≤ c1 → 0 ≤ c2 →
        mkChunkId s1 p1 c1 = mkChunkId s2 p2 c2 → s1 = s2 ∧ p1 = p2 ∧ c1 = c2)
    ∧ (∀ (st : IndexerState) (persisted : List Record) (fs : List FileRec)
        (now : String) (c : Chunk),
        c ∈ (indexKnowledgeBase st persisted fs now).2.2.chunks →
        0 ≤ c.metadata.chunk_index) := by
  constructor
  · intro s1 s2 p1 p2 c1 c2 hc1 hc2 h
    exact mkChunkId_injective hc1 hc2 h
  · intro st persisted fs now c hc
    simp only [indexKnowledgeBase, processDocuments_eq, List.mem_flatMap] at hc
    obtain ⟨f, _, hcf⟩ := hc
    exact (mem_indexBranch (mem_processFile hcf)).2.2.1

/-- C4 witness: the injectivity applied at a concrete triple. -/
theorem claim_C4_witness :
    ("a" : String) = "a" ∧ (1 : Nat) = 1 ∧ (2 : Int) = 2 :=
  claim_C4_amended.1 "a" "a" 1 1 2 2 (by decide) (by decide) rfl

/-- C6: when the file exists and the store lookup raises, `_needs_indexing`
returns `True` (fail-open), and the file is then sent through the dirty
branch (re-extracted) rather than skipped. -/
theorem claim_C6 (now : String) (fs : List FileRec) (col : Collection)
    (f g : FileRec) (hlook : lookupFile fs f.path = some g)
    (hfail : col.queryFails = true) :
    (needsIndexing fs col f.path).1 = true
    ∧ processFile now fs (some col) f =
        ((indexBranch now f).1, Ev.hashCalc f.path :: (indexBranch now f).2) := by
  have hget : collectionGet col f.path = Except.error () := by
    simp [collectionGet, hfail]
  have hneed : needsIndexing fs col f.path = (true, [Ev.hashCalc f.path]) := by
    simp [needsIndexing, hlook, hget]
  refine ⟨by rw [hneed], ?_⟩
  simp [processFile, hneed]

/-- C6 witness: a failing store sends an existing file to re-extraction. -/
theorem claim_C6_witness :
    (needsIndexing [fileA] ⟨[], true⟩ fileA.path).1 = true
    ∧ processFile "t" [fileA] (some ⟨[], true⟩) fileA =
        ((indexBranch "t" fileA).1, Ev.hashCalc fileA.path :: (indexBranch "t" fileA).2) :=
  claim_C6 "t" [fileA] ⟨[], true⟩ fileA fileA (by decide) rfl

/-- C7 counterexample: the digest input is the undelimited concatenation
of the bytes with `str(st_mtime)`, so the two file states
(bytes `X1`, mtime `2.5`) and (bytes `X`, mtime `12.5`) — different bytes
and different mtime — produce identical fingerprints even under a
collision-free digest, refuting "the result changes if the file bytes or
the modification time change". -/
theorem claim_C7_counterexample :
    calculateHash [88, 49] "2.5" = calculateHash [88] "12.5"
    ∧ ([88, 49] : List Nat) ≠ [88]
    ∧ ("2.5" : String) ≠ "12.5" := by
  refine ⟨by decide, by decide, by decide⟩

/-- C7 amended: the fingerprint is a deterministic function of the bytes
and the mtime string; states with identical bytes and mtime hash equally;
when the byte length is unchanged the fingerprint changes exactly when the
bytes or the mtime change (so any in-place byte modification, and any
mtime change alone, is detected and makes `_needs_indexing` return
`True`); but without the length restriction distinct states can collide
because the concatenation is undelimited. -/
theorem claim_C7_amended (b1 b2 : List Nat) (t1 t2 : String) :
    (b1 = b2 → t1 = t2 → calculateHash b1 t1 = calculateHash b2 t2)
    ∧ (b1.length = b2.length →
        (calculateHash b1 t1 = calculateHash b2 t2 ↔ b1 = b2 ∧ t1 = t2))
    ∧ (b1 = b2 → (calculateHash b1 t1 = calculateHash b2 t2 ↔ t1 = t2))
    ∧ (∀ fs col path f r rest,
        lookupFile fs path = some f → col.queryFails = false →
        (col.records.filter (fun q => q.meta.source = path)) = r :: rest →
        r.meta.content_hash ≠ calculateHash f.bytes f.mtimeStr →
        (needsIndexing fs col path).1 = true) := by
  refine ⟨?_, ?_, ?_, ?_⟩
  · intro hb ht
    rw [hb, ht]
  · intro hlen
    constructor
    · intro h
      obtain ⟨hb, ht⟩ := List.append_inj h hlen
      exact ⟨hb, strBytes_injective ht⟩
    · rintro ⟨hb, ht⟩
      rw [hb, ht]
  · intro hb
    constructor
    · intro h
      rw [hb] at h
      exact strBytes_injective (List.append_cancel_left h)
    · intro ht
      rw [hb, ht]
  · intro fs col path f r rest hlook hq hfil hne
    exact (needsIndexing_first_record hlook hq hfil).mpr hne

/-- C7 witness: same-length byte states are distinguished. -/
theorem claim_C7_witness :
    ([1, 2] : List Nat).length = ([3, 4] : List Nat).length
    ∧ (calculateHash [1, 2] "5.0" = calculateHash [3, 4] "5.0" ↔
        ([1, 2] : List Nat) = [3, 4] ∧ ("5.0" : String) = "5.0") :=
  ⟨by decide, (claim_C7_amended [1, 2] [3, 4] "5.0" "5.0").2.1 (by decide)⟩

/-- C9: on the first call after construction `self.collection` is `None`,
so the change-detection check is bypassed: no file is skipped, every
discovered file goes straight through the dirty branch, the run's outcome
is independent of whatever fingerprints the persisted store holds, and
only after the run is `self.collection` set. -/
theorem claim_C9 (now : String) (fs : List FileRec) (p1 p2 : List Record) :
    (indexKnowledgeBase ⟨none⟩ p1 fs now).2.2 = (indexKnowledgeBase ⟨none⟩ p2 fs now).2.2
    ∧ (∀ f, processFile now fs none f = indexBranch now f)
    ∧ skippedPaths (indexKnowledgeBase ⟨none⟩ p1 fs now).2.2 = []
    ∧ (indexKnowledgeBase ⟨none⟩ p1 fs now).1.collection ≠ none := by
  refine ⟨rfl, fun f => rfl, ?_, by simp [indexKnowledgeBase]⟩
  simp only [indexKnowledgeBase, processDocuments_eq, skippedPaths]
  rw [List.filterMap_eq_nil_iff]
  intro e he
  simp only [List.mem_flatMap] at he
  obtain ⟨f, _, hef⟩ := he
  have : ∀ p, e ≠ Ev.skipLog p := by
    intro p
    cases hp : f.pages with
    | error u =>
      simp only [processFile, indexBranch, extractTextFromPdf, hp] at hef
      simp at hef
      subst hef
      simp
    | ok texts =>
      simp only [processFile, indexBranch, extractTextFromPdf, hp] at hef
      by_cases hext : ((pyEnum texts).filterMap (fun it =>
          if hasText it.2 then some (⟨it.2, it.1 + 1, texts.length⟩ : Page) else none)).isEmpty
      · simp [hext] at hef
      · simp only [hext, Bool.false_eq_true, if_false] at hef
        simp only [List.nil_append, List.mem_cons, List.not_mem_nil, or_false] at hef
        rcases hef with rfl | rfl <;> simp
  cases e <;> first | rfl | exact absurd rfl (this _)

/-- C10: a page whose extracted text is empty or whitespace-only yields no
text unit (so page numbers can have gaps), and a PDF all of whose pages
are whitespace-only extracts to nothing, produces no chunks in any state,
and a run over it performs no store write. -/
theorem claim_C10 (f : FileRec) (texts : List String)
    (hpages : f.pages = Except.ok texts) :
    (∀ u ∈ (extractTextFromPdf f).1,
        hasText u.text = true ∧ 1 ≤ u.page_number ∧
          texts[u.page_number - 1]? = some u.text)
    ∧ (∀ (i : Nat) (t : String), texts[i]? = some t → hasText t = false →
        ∀ u ∈ (extractTextFromPdf f).1, u.page_number ≠ i + 1)
    ∧ ((∀ t ∈ texts, hasText t = false) →
        (extractTextFromPdf f).1 = []
        ∧ (∀ (now : String) (fs : List FileRec) (col? : Option Collection),
            (processFile now fs col? f).1 = [])
        ∧ (∀ (st : IndexerState) (persisted : List Record) (now : String),
            (indexKnowledgeBase st persisted [f] now).2.2.writes = [])) := by
  have hmem : ∀ u ∈ (extractTextFromPdf f).1,
      hasText u.text = true ∧ 1 ≤ u.page_number ∧
        texts[u.page_number - 1]? = some u.text := by
    intro u hu
    have h := mem_extractTextFromPdf hpages hu
    exact ⟨h.1, h.2.1, h.2.2.1⟩
  refine ⟨hmem, ?_, ?_⟩
  · intro i t hget ht u hu hpn
    obtain ⟨hht, _, hg⟩ := hmem u hu
    rw [hpn, Nat.add_sub_cancel, hget] at hg
    have hte : t = u.text := by injection hg
    rw [← hte, ht] at hht
    exact Bool.noConfusion hht
  · intro hall
    have hext : (extractTextFromPdf f).1 = [] := by
      simp only [extractTextFromPdf, hpages]
      rw [List.filterMap_eq_nil_iff]
      intro it hit
      have hmem2 : it.2 ∈ texts := List.getElem?_mem (mem_pyEnum.mp hit).2
      simp [hall it.2 hmem2]
    have hpf : ∀ (now : String) (fs : List FileRec) (col? : Option Collection),
        (processFile now fs col? f).1 = [] := by
      intro now fs col?
      have hib : (indexBranch now f).1 = [] := by
        simp [indexBranch, hext]
      cases col? with
      | none => exact hib
      | some col =>
        by_cases hneed : (needsIndexing fs col f.path).1
        · simp [processFile, hneed, hib]
        · simp [processFile, hneed]
    refine ⟨hext, hpf, ?_⟩
    intro st persisted now
    have hchunks : (processDocuments now st.collection [f]).1 = [] := by
      rw [processDocuments_eq]
      apply flatMap_eq_nil_of
      intro g hg
      rw [discover] at hg
      have hg1 := (List.mem_filter.mp hg).1
      have hgf : g = f := List.mem_singleton.mp hg1
      rw [hgf]
      exact hpf now [f] st.collection
    simp [indexKnowledgeBase, hchunks]

/-- C10 witness: a two-page PDF both of whose pages are whitespace-only. -/
theorem claim_C10_witness :
    fileWs.pages = Except.ok ["  ", "\t\n"]
    ∧ (extractTextFromPdf fileWs).1 = []
    ∧ (indexKnowledgeBase ⟨none⟩ [] [fileWs] "t").2.2.writes = [] :=
  ⟨rfl, ((claim_C10 fileWs ["  ", "\t\n"] rfl).2.2 (by decide)).1,
   ((claim_C10 fileWs ["  ", "\t\n"] rfl).2.2 (by decide)).2.2 ⟨none⟩ [] "t"⟩


/-- Per-file failure report: a file whose extraction succeeds contributes
no extraction-error event. -/
theorem processFile_faileds_ok {now : String} {fs : List FileRec}
    {col? : Option Collection} {f : FileRec} {texts : List String}
    (hp : f.pages = Except.ok texts) :
    ((processFile now fs col? f).2).filterMap evFail = [] := by
  have hbranch : ((indexBranch now f).2).filterMap evFail = [] := by
    simp only [indexBranch, extractTextFromPdf, hp]
    by_cases hext : ((pyEnum texts).filterMap (fun it =>
        if hasText it.2 then some (⟨it.2, it.1 + 1, texts.length⟩ : Page) else none)).isEmpty
    · simp [hext]
    · simp [hext, evFail]
  cases col? with
  | none => exact hbranch
  | some col =>
    by_cases hneed : (needsIndexing fs col f.path).1
    · have hev := needsIndexing_true_events hneed
      simp [processFile, hneed, hev, List.filterMap_append, hbranch, evFail]
    · simp [processFile, hneed, List.filterMap_append, evFail]
      cases hlook : lookupFile fs f.path with
      | none => simp [needsIndexing, hlook, evFail]
      | some g =>
        cases hget : collectionGet col f.path with
        | error e => simp [needsIndexing, hlook, hget, evFail]
        | ok metas =>
          cases metas <;> simp [needsIndexing, hlook, hget, evFail]

/-- Per-file failure report: a file whose extraction raises contributes
exactly its own path, once (the collection is unset, so the file is
processed). -/
theorem processFile_faileds_err {now : String} {fs : List FileRec} {f : FileRec}
    (hp : f.pages = Except.error ()) :
    ((processFile now fs none f).2).filterMap evFail = [f.path] := by
  simp [processFile, indexBranch, extractTextFromPdf, hp, evFail]

/-- C5: a run over a batch in which exactly one file fails extraction does
not abort (the model's run is a total function because the `pypdf`
exception is caught at lines 85-87): the corrupted file's path is exactly
what the failure report holds, and every other discovered file with
extractable text still contributes its chunks. -/
theorem claim_C5 (now : String) (persisted : List Record)
    (l1 l2 : List FileRec) (bad : FileRec)
    (hbadpdf : isPdfPath bad.path = true)
    (hbad : bad.pages = Except.error ())
    (hok : ∀ f ∈ l1 ++ l2, ∃ texts, f.pages = Except.ok texts) :
    failedPaths (indexKnowledgeBase ⟨none⟩ persisted (l1 ++ bad :: l2) now).2.2
      = [bad.path]
    ∧ (∀ (f : FileRec) (texts : List String), f ∈ l1 ++ l2 →
        isPdfPath f.path = true → f.pages = Except.ok texts →
        texts.any hasText = true →
        ∃ c ∈ (indexKnowledgeBase ⟨none⟩ persisted (l1 ++ bad :: l2) now).2.2.chunks,
          c.metadata.source = f.path) := by
  have hdisc : discover (l1 ++ bad :: l2)
      = discover l1 ++ bad :: discover l2 := by
    simp only [discover, List.filter_append, List.filter_cons, hbadpdf, if_pos]
  constructor
  · show ((indexKnowledgeBase ⟨none⟩ persisted (l1 ++ bad :: l2) now).2.2.events).filterMap evFail = [bad.path]
    have hev : (indexKnowledgeBase ⟨none⟩ persisted (l1 ++ bad :: l2) now).2.2.events
        = (discover (l1 ++ bad :: l2)).flatMap
            (fun f => (processFile now (l1 ++ bad :: l2) none f).2) := by
      simp [indexKnowledgeBase, processDocuments_eq]
    rw [hev, filterMap_flatMap, hdisc, List.flatMap_append, List.flatMap_cons]
    have h1 : (discover l1).flatMap
        (fun f => ((processFile now (l1 ++ bad :: l2) none f).2).filterMap evFail) = [] := by
      apply flatMap_eq_nil_of
      intro g hg
      obtain ⟨texts, ht⟩ := hok g (List.mem_append_left l2 (List.mem_filter.mp hg).1)
      exact processFile_faileds_ok ht
    have h2 : (discover l2).flatMap
        (fun f => ((processFile now (l1 ++ bad :: l2) none f).2).filterMap evFail) = [] := by
      apply flatMap_eq_nil_of
      intro g hg
      obtain ⟨texts, ht⟩ := hok g (List.mem_append_right l1 (List.mem_filter.mp hg).1)
      exact processFile_faileds_ok ht
    rw [h1, processFile_faileds_err hbad, h2]
    rfl
  · intro f texts hf hpdf hpages htext
    have hchunks : (indexKnowledgeBase ⟨none⟩ persisted (l1 ++ bad :: l2) now).2.2.chunks
        = (discover (l1 ++ bad :: l2)).flatMap
            (fun g => (processFile now (l1 ++ bad :: l2) none g).1) := by
      simp [indexKnowledgeBase, processDocuments_eq]
    rw [hchunks]
    have hfmem : f ∈ l1 ++ bad :: l2 := by
      rcases List.mem_append.mp hf with h | h
      · exact List.mem_append_left _ h
      · exact List.mem_append_right _ (List.mem_cons_of_mem bad h)
    have hfdisc : f ∈ discover (l1 ++ bad :: l2) :=
      List.mem_filter.mpr ⟨hfmem, hpdf⟩
    obtain ⟨c, hc⟩ := List.exists_mem_of_ne_nil _
      (@indexBranch_chunks_ne_nil now f texts hpages htext)
    refine ⟨c, List.mem_flatMap.mpr ⟨f, hfdisc, hc⟩, (mem_indexBranch hc).1⟩

/-- C5 witness: one healthy file and one corrupt file. -/
theorem claim_C5_witness :
    isPdfPath fileBad.path = true
    ∧ failedPaths (indexKnowledgeBase ⟨none⟩ [] [fileA, fileBad] "t").2.2 = [fileBad.path]
    ∧ ∃ c ∈ (indexKnowledgeBase ⟨none⟩ [] [fileA, fileBad] "t").2.2.chunks,
        c.metadata.source = fileA.path :=
  ⟨by decide,
   (claim_C5 "t" [] [fileA] [] fileBad (by decide) rfl
      (by intro g hg; simp at hg; subst hg; exact ⟨_, rfl⟩)).1,
   (claim_C5 "t" [] [fileA] [] fileBad (by decide) rfl
      (by intro g hg; simp at hg; subst hg; exact ⟨_, rfl⟩)).2 fileA
      ["hello world"] (by simp [fileA]) (by decide) rfl (by decide)⟩


/-- C8 counterexample: with `self.collection` set (second and later runs)
and a file that needs re-indexing, the run computes the file's content
hash twice — once inside `_needs_indexing` (line 39) and once for
stamping (line 105) — refuting "computed exactly once per file". -/
theorem claim_C8_counterexample :
    hashCalcCount (indexKnowledgeBase ⟨some ⟨[], false⟩⟩ [] [fileA] "t").2.2 fileA.path
      = 2 := by
  decide

/-- C8 amended: every chunk produced from a file carries that file's
hash (so, over paths discovered once, all chunks sharing a source share
one hash); on a first run (collection unset) the hash is computed exactly
once per processed file and not at all for files with empty extraction;
but when the change detector is consulted and the file is then processed,
the hash is computed twice in the run, not once. -/
theorem claim_C8_amended :
    (∀ (now : String) (fs : List FileRec) (col? : Option Collection) (f : FileRec),
        ∀ c ∈ (processFile now fs col? f).1,
          c.metadata.source = f.path ∧
            c.metadata.content_hash = calculateHash f.bytes f.mtimeStr)
    ∧ (∀ (st : IndexerState) (persisted : List Record) (fs : List FileRec)
        (now : String), (fs.map (fun f => f.path)).Nodup →
        ∀ c1 ∈ (indexKnowledgeBase st persisted fs now).2.2.chunks,
        ∀ c2 ∈ (indexKnowledgeBase st persisted fs now).2.2.chunks,
          c1.metadata.source = c2.metadata.source →
          c1.metadata.content_hash = c2.metadata.content_hash)
    ∧ (∀ (now : String) (persisted : List Record) (f : FileRec),
        isPdfPath f.path = true →
        hashCalcCount (indexKnowledgeBase ⟨none⟩ persisted [f] now).2.2 f.path
          = if (extractTextFromPdf f).1.isEmpty then 0 else 1)
    ∧ (∀ (now : String) (fs : List FileRec) (col : Collection) (f : FileRec),
        (needsIndexing fs col f.path).1 = true →
        (extractTextFromPdf f).1.isEmpty = false →
        ((processFile now fs (some col) f).2.filter
            (fun e => e = Ev.hashCalc f.path)).length = 2) := by
  have hbranch : ∀ (now : String) (f : FileRec), ∀ c ∈ (indexBranch now f).1,
      c.metadata.source = f.path ∧
        c.metadata.content_hash = calculateHash f.bytes f.mtimeStr := by
    intro now f c hc
    exact ⟨(mem_indexBranch hc).1, (mem_indexBranch hc).2.1⟩
  refine ⟨?_, ?_, ?_, ?_⟩
  · intro now fs col? f c hc
    exact hbranch now f c (mem_processFile hc)
  · intro st persisted fs now hnodup c1 hc1 c2 hc2 hsrc
    simp only [indexKnowledgeBase, processDocuments_eq, List.mem_flatMap] at hc1 hc2
    obtain ⟨f1, hf1, hcf1⟩ := hc1
    obtain ⟨f2, hf2, hcf2⟩ := hc2
    have h1 := hbranch now f1 c1 (mem_processFile hcf1)
    have h2 := hbranch now f2 c2 (mem_processFile hcf2)
    have hpath : f1.path = f2.path := by rw [← h1.1, ← h2.1, hsrc]
    have hfe : f1 = f2 :=
      List.inj_on_of_nodup_map hnodup (List.mem_filter.mp hf1).1
        (List.mem_filter.mp hf2).1 hpath
    rw [h1.2, h2.2, hfe]
  · intro now persisted f hpdf
    have hdisc : discover [f] = [f] := by
      simp [discover, List.filter_cons, hpdf]
    have hev : (indexKnowledgeBase ⟨none⟩ persisted [f] now).2.2.events
        = (indexBranch now f).2 := by
      simp only [indexKnowledgeBase, processDocuments_eq, hdisc, List.flatMap_cons,
        List.flatMap_nil, List.append_nil]
      rfl
    rw [hashCalcCount, hev]
    cases hp : f.pages with
    | error u =>
      have hext : (extractTextFromPdf f).1 = [] := by
        simp [extractTextFromPdf, hp]
      simp [indexBranch, extractTextFromPdf, hp, hext]
    | ok texts =>
      by_cases hext : ((extractTextFromPdf f).1).isEmpty
      · simp [indexBranch, hext]
        simp only [extractTextFromPdf, hp]
        simp
      · simp only [indexBranch, hext, Bool.false_eq_true, if_false]
        have h2 : (extractTextFromPdf f).2 = [] := by
          simp [extractTextFromPdf, hp]
        rw [h2]
        simp
  · intro now fs col f hneed hext
    have hev := needsIndexing_true_events hneed
    have h2 : (extractTextFromPdf f).2 = [] := by
      cases hp : f.pages with
      | error u =>
        exfalso
        have : (extractTextFromPdf f).1 = [] := by simp [extractTextFromPdf, hp]
        rw [this] at hext
        simp at hext
      | ok texts => simp [extractTextFromPdf, hp]
    simp only [processFile, hneed, if_pos, indexBranch, hext, Bool.false_eq_true,
      if_false, hev, h2]
    simp

/-- C8 witness: a healthy single file on a first run computes its hash
exactly once. -/
theorem claim_C8_witness :
    isPdfPath fileA.path = true
    ∧ hashCalcCount (indexKnowledgeBase ⟨none⟩ [] [fileA] "t").2.2 fileA.path
        = if (extractTextFromPdf fileA).1.isEmpty then 0 else 1 :=
  ⟨by decide, claim_C8_amended.2.2.1 "t" [] fileA (by decide)⟩


/-- C2: running `index_knowledge_base` a second time on an unchanged
single-document folder performs zero store writes — the unchanged file is
skipped (one skip event, no processing, no failure) and the persisted
store is left exactly as the first run built it.  The first run is taken
from a fresh `Indexer` over a store holding no records for the document's
path (the state the spec's scenario starts from). -/
theorem claim_C2 (f : FileRec) (texts : List String) (persisted : List Record)
    (now1 now2 : String) (st1 : IndexerState) (per1 : List Record) (out1 : RunOut)
    (hpdf : isPdfPath f.path = true)
    (hpages : f.pages = Except.ok texts)
    (htext : texts.any hasText = true)
    (hper : ∀ r ∈ persisted, r.meta.source ≠ f.path)
    (hrun1 : indexKnowledgeBase ⟨none⟩ persisted [f] now1 = (st1, per1, out1)) :
    (indexKnowledgeBase st1 per1 [f] now2).2.2.writes = []
    ∧ (indexKnowledgeBase st1 per1 [f] now2).2.2.chunks = []
    ∧ (indexKnowledgeBase st1 per1 [f] now2).2.1 = per1
    ∧ skippedPaths (indexKnowledgeBase st1 per1 [f] now2).2.2 = [f.path]
    ∧ processedPaths (indexKnowledgeBase st1 per1 [f] now2).2.2 = []
    ∧ failedPaths (indexKnowledgeBase st1 per1 [f] now2).2.2 = [] := by
  have hdisc : discover [f] = [f] := by
    simp [discover, List.filter_cons, hpdf]
  have hchunks1 : (processDocuments now1 none [f]).1 = (indexBranch now1 f).1 := by
    rw [processDocuments_eq, hdisc]
    simp only [List.flatMap_cons, List.flatMap_nil, List.append_nil]
    rfl
  have e1 : (indexKnowledgeBase ⟨none⟩ persisted [f] now1).1 = st1 :=
    congrArg Prod.fst hrun1
  have e2 : (indexKnowledgeBase ⟨none⟩ persisted [f] now1).2.1 = per1 :=
    congrArg (fun x => x.2.1) hrun1
  have hper1 : per1 = (((indexBranch now1 f).1).map
      (fun c => Record.mk (chunkId c) c.page_content c.metadata)).foldl
        upsertRecord persisted := by
    rw [← e2]
    simp only [indexKnowledgeBase, hchunks1]
  have hst1 : st1 = ⟨some ⟨per1, false⟩⟩ := by
    rw [← e1, ← e2]
    simp only [indexKnowledgeBase, hchunks1]
  have hwmem : ∀ w ∈ ((indexBranch now1 f).1).map
      (fun c => Record.mk (chunkId c) c.page_content c.metadata),
      w.meta.source = f.path ∧
        w.meta.content_hash = calculateHash f.bytes f.mtimeStr := by
    intro w hw
    obtain ⟨c, hc, rfl⟩ := List.mem_map.mp hw
    exact ⟨(mem_indexBranch hc).1, (mem_indexBranch hc).2.1⟩
  have hwne : ((indexBranch now1 f).1).map
      (fun c => Record.mk (chunkId c) c.page_content c.metadata) ≠ [] := by
    simp only [ne_eq, List.map_eq_nil_iff]
    exact indexBranch_chunks_ne_nil hpages htext
  have hper1mem : ∀ r ∈ per1, r.meta.source = f.path →
      r.meta.content_hash = calculateHash f.bytes f.mtimeStr := by
    rw [hper1]
    intro r hr hsrc
    rcases mem_foldl_upsert _ _ _ hr with hbase | hws
    · exact absurd hsrc (hper r hbase)
    · exact (hwmem r hws).2
  have hper1ex : ∃ r ∈ per1, r.meta.source = f.path := by
    rw [hper1]
    exact exists_mem_foldl_upsert persisted hwne (fun w hw => (hwmem w hw).1)
  have hlook : lookupFile [f] f.path = some f := by
    rw [lookupFile]
    exact List.find?_cons_of_pos _ (by simp)
  have hfilne : per1.filter (fun r => r.meta.source = f.path) ≠ [] := by
    obtain ⟨r, hr, hsrc⟩ := hper1ex
    exact List.ne_nil_of_mem (List.mem_filter.mpr ⟨hr, by simp [hsrc]⟩)
  obtain ⟨r0, rest, hfil⟩ := List.exists_cons_of_ne_nil hfilne
  have hr0 : r0 ∈ per1 ∧ r0.meta.source = f.path := by
    have hm : r0 ∈ per1.filter (fun r => r.meta.source = f.path) := by
      rw [hfil]
      exact List.mem_cons_self r0 rest
    have := List.mem_filter.mp hm
    exact ⟨this.1, by simpa using this.2⟩
  have hr0hash : r0.meta.content_hash = calculateHash f.bytes f.mtimeStr :=
    hper1mem r0 hr0.1 hr0.2
  have hget : collectionGet ⟨per1, false⟩ f.path
      = Except.ok ((per1.filter (fun r => r.meta.source = f.path)).map
          (fun r => r.meta)) := by
    simp [collectionGet]
  have hneed : needsIndexing [f] ⟨per1, false⟩ f.path
      = (false, [Ev.hashCalc f.path]) := by
    simp only [needsIndexing, hlook, hget, hfil, List.map_cons]
    simp [hr0hash]
  have hpf2 : processFile now2 [f] (some ⟨per1, false⟩) f
      = ([], [Ev.hashCalc f.path, Ev.skipLog f.path]) := by
    simp [processFile, hneed]
  have hpd2 : processDocuments now2 st1.collection [f]
      = ([], [Ev.hashCalc f.path, Ev.skipLog f.path]) := by
    rw [hst1]
    rw [processDocuments_eq, hdisc]
    simp [hpf2]
  refine ⟨?_, ?_, ?_, ?_, ?_, ?_⟩ <;>
    simp [indexKnowledgeBase, hpd2, skippedPaths, processedPaths, failedPaths,
      evSkip, evFail, evProc]

/-- C2 witness: one healthy file indexed from scratch, then re-run. -/
theorem claim_C2_witness :
    isPdfPath fileA.path = true
    ∧ (indexKnowledgeBase (indexKnowledgeBase ⟨none⟩ [] [fileA] "t1").1
        (indexKnowledgeBase ⟨none⟩ [] [fileA] "t1").2.1 [fileA] "t2").2.2.writes = []
    ∧ skippedPaths (indexKnowledgeBase (indexKnowledgeBase ⟨none⟩ [] [fileA] "t1").1
        (indexKnowledgeBase ⟨none⟩ [] [fileA] "t1").2.1 [fileA] "t2").2.2
        = [fileA.path] :=
  ⟨by decide,
   (claim_C2 fileA ["hello world"] [] "t1" "t2" _ _ _ (by decide) rfl (by decide)
      (by simp) rfl).1,
   (claim_C2 fileA ["hello world"] [] "t1" "t2" _ _ _ (by decide) rfl (by decide)
      (by simp) rfl).2.2.2.1⟩


/-- C9 witness: the first-run bypass at a concrete file and store. -/
theorem claim_C9_witness :
    processFile "t" [fileA] none fileA = indexBranch "t" fileA
    ∧ skippedPaths (indexKnowledgeBase ⟨none⟩ [] [fileA] "t").2.2 = [] :=
  ⟨(claim_C9 "t" [fileA] [] []).2.1 fileA, (claim_C9 "t" [fileA] [] []).2.2.1⟩

end KBIndexer
